import Mathlib

/-!
Shallow embedding of `docshuffle-rs` (`src/src/main.rs`): a two-phase out-of-memory
shuffle.  The coarse phase routes every line (record) of every input document into one
of `K` local cell files, choosing the cell as a fresh random draw reduced modulo `K`;
the fine phase reads each cell back, applies a Fisher-Yates shuffle, splits the result
into chunks of at most `D` records and writes each chunk as a numbered output shard.

Bytes are modelled as `Nat` (10 = LF, 13 = CR).  Randomness is passed in explicitly as
draw streams `Nat → Nat`.  The parallel loops of the source are modelled by their
sequential schedule; panics (`% 0`, `chunks(0)`) are modelled as `none`.
-/

namespace Docshuffle

/-- A byte string: file content as a list of byte values (10 = LF, 13 = CR). -/
abbrev Bytes := List Nat

/-- A record: the bytes of one text line, line terminator stripped. -/
abbrev Record := List Nat

/-- Modelled from the spec: `read_pathbuf_to_mem` / `write_mem_to_pathbuf` (`crate::io`,
declared at main.rs line 24 but not under `src/`) are byte transport with transparent
compression (spec section 6, Storage read/write): reading an identifier returns exactly
the byte buffer previously written or appended there, so the model carries file contents
as `Bytes` values and reading is the identity. -/
def read_pathbuf_to_mem (b : Bytes) : Bytes := b

/-- `BufRead::lines` strips a final CR when it precedes the stripped LF. -/
def stripCR (l : List Nat) : List Nat := if l.getLast? = some 13 then l.dropLast else l

/-- Accumulator version of std `BufRead::lines`; `acc` holds the current line reversed.
A line ending in LF has the LF (and a preceding CR) stripped; a final line without
terminator is yielded as-is; a trailing LF yields no extra empty line. -/
def linesOfAux : List Nat → List Nat → List (List Nat)
  | [], acc => if acc = [] then [] else [acc.reverse]
  | b :: bs, acc =>
    if b = 10 then stripCR acc.reverse :: linesOfAux bs []
    else linesOfAux bs (b :: acc)

/-- The records `contents.lines()` yields for a byte buffer (main.rs lines 126, 148). -/
def linesOf (bs : List Nat) : List (List Nat) := linesOfAux bs []

/-- main.rs 80-100: one cell sink per index in `[0, K)`.  The sink is opened with
`append(true).create(true)`, which does not truncate: the sink starts with the
pre-existing content `pre i` of `local_mapper_i.bin` (empty only if no such file). -/
def build_local_mappers (K : Nat) (pre : Nat → Bytes) : List Bytes := (List.range K).map pre

/-- main.rs 128-131: append one record plus its line terminator to cell `i`. -/
def appendToCell (cells : List Bytes) (i : Nat) (r : Record) : List Bytes :=
  cells.set i (cells.getD i [] ++ (r ++ [10]))

/-- main.rs 126-132: route each record of a document to cell `draws t % K`, where
`draws t` models the `t`-th value of `rng.gen::<usize>()`.  In Rust `% 0` panics,
modelled as `none`. -/
def routeRecords (K : Nat) (draws : Nat → Nat) :
    List Record → Nat → List Bytes → Option (List Bytes × Nat)
  | [], t, cells => some (cells, t)
  | r :: rs, t, cells =>
    if K = 0 then none
    else routeRecords K draws rs (t + 1) (appendToCell cells (draws t % K) r)

/-- main.rs 122-134. -/
def coarse_shuffle_single (K : Nat) (draws : Nat → Nat) (doc : Bytes) (t : Nat)
    (cells : List Bytes) : Option (List Bytes × Nat) :=
  routeRecords K draws (linesOf (read_pathbuf_to_mem doc)) t cells

/-- main.rs 106-114: the per-document loop, in its sequential schedule. -/
def coarse_loop (K : Nat) (draws : Nat → Nat) :
    List Bytes → Nat → List Bytes → Option (List Bytes × Nat)
  | [], t, cells => some (cells, t)
  | doc :: docs, t, cells =>
    match coarse_shuffle_single K draws doc t cells with
    | none => none
    | some (cells', t') => coarse_loop K draws docs t' cells'

/-- main.rs 103-119: coarse phase, returning the final contents of the K cell files. -/
def coarse_shuffle (K : Nat) (draws : Nat → Nat) (docs : List Bytes) (pre : Nat → Bytes) :
    Option (List Bytes) :=
  match coarse_loop K draws docs 0 (build_local_mappers K pre) with
  | none => none
  | some (cells, _) => some cells

/-- Rust `slice::chunks` for nonzero chunk size, by structural fuel (`fuel ≥ xs.length`). -/
def chunksGo {α : Type _} (D : Nat) : Nat → List α → List (List α)
  | _, [] => []
  | 0, _ :: _ => []
  | fuel + 1, x :: xs => (x :: xs).take D :: chunksGo D fuel ((x :: xs).drop D)

/-- `lines.chunks(D)` (main.rs 150) for `D ≠ 0`; `chunks(0)` panics and is handled
by the caller `processCell`. -/
def chunksOf {α : Type _} (D : Nat) (xs : List α) : List (List α) := chunksGo D xs.length xs

/-- rand `SliceRandom::shuffle` (main.rs 149): Fisher-Yates, one swap per draw, walking
the swap position from `len-1` down to `1`.  Draw `j` swaps the current last position
with position `j`: the prefix keeps the old last element at slot `j` and the element
formerly at slot `j` becomes the fixed last element. -/
def fy : List Nat → List Record → List Record
  | [], l => l
  | j :: ds, l =>
    fy ds (l.dropLast.set j (l.getLastD [])) ++ [l.dropLast.getD j (l.getLastD [])]

/-- The draw list a cell task consumes: `f (t + k)` models the `k`-th value of
`gen_range(0..=i)` drawn by the shuffle. -/
def fineDrawsList (f : Nat → Nat) (t n : Nat) : List Nat :=
  (List.range n).map fun k => f (t + k)

/-- An output shard: its dense sequence number and its records. -/
structure Shard where
  id : Nat
  recs : List Record
deriving DecidableEq

/-- main.rs 163-173: take the next shard number from the shared counter, bump the
output-file counter, and emit the chunk as one shard. -/
def write_chunk (chunk : List Record) (counter outCount : Nat) : Shard × Nat × Nat :=
  (⟨counter, chunk⟩, counter + 1, outCount + 1)

/-- main.rs 166-169: serialized bytes of a chunk — each record followed by one LF. -/
def chunkBytes (chunk : List Record) : Bytes := (chunk.map fun r => r ++ [10]).flatten

/-- main.rs 150-152: write every chunk in order, threading both counters. -/
def writeChunksList : List (List Record) → Nat → Nat → List Shard × Nat × Nat
  | [], counter, outCount => ([], counter, outCount)
  | ch :: rest, counter, outCount =>
    match write_chunk ch counter outCount with
    | (s, c', o') =>
      match writeChunksList rest c' o' with
      | (ss, c'', o'') => (s :: ss, c'', o'')

/-- main.rs 146-156, body for one cell: read it back, shuffle, chunk, write.
`lines.chunks(0)` panics in Rust, modelled as `none`. -/
def processCell (D : Nat) (f : Nat → Nat) (cell : Bytes) (t counter outCount : Nat) :
    Option (List Shard × Nat × Nat × Nat) :=
  if D = 0 then none
  else
    let recs := linesOf (read_pathbuf_to_mem cell)
    let shuffled := fy (fineDrawsList f t (recs.length - 1)) recs
    match writeChunksList (chunksOf D shuffled) counter outCount with
    | (ss, c', o') => some (ss, t + (recs.length - 1), c', o')

/-- main.rs 141-160: the per-cell loop in its sequential schedule, returning all shards
and the final value of `output_file_count`. -/
def finalize_loop (D : Nat) (f : Nat → Nat) :
    List Bytes → Nat → Nat → Nat → Option (List Shard × Nat)
  | [], _, _, outCount => some ([], outCount)
  | cell :: rest, t, counter, outCount =>
    match processCell D f cell t counter outCount with
    | none => none
    | some (ss, t', c', o') =>
      match finalize_loop D f rest t' c' o' with
      | none => none
      | some (ss2, oFin) => some (ss ++ ss2, oFin)

/-- main.rs 141-160. -/
def finalize_chunks (D : Nat) (f : Nat → Nat) (cells : List Bytes) :
    Option (List Shard × Nat) :=
  finalize_loop D f cells 0 0 0

/-- main.rs 179-197: the whole pipeline — coarse phase then fine phase (path expansion,
progress and timing elided). -/
def run (K D : Nat) (cd fd : Nat → Nat) (docs : List Bytes) (pre : Nat → Bytes) :
    Option (List Shard × Nat) :=
  match coarse_shuffle K cd docs pre with
  | none => none
  | some cells => finalize_chunks D fd cells

/-- Serialization of a record list as it lands in a cell file: each record followed by
one LF (main.rs 128-131). -/
def encodeRecs (rs : List Record) : Bytes := (rs.map fun r => r ++ [10]).flatten

/-- The records that the coarse pass starting at draw position `t` routes into cell `i`:
record number `k` (zero-based) goes to cell `draws (t+k) % K`. -/
def assignedTo (K : Nat) (draws : Nat → Nat) : Nat → Nat → List Record → List Record
  | _, _, [] => []
  | t, i, r :: rs => (if draws t % K = i then [r] else []) ++ assignedTo K draws (t + 1) i rs

/-- Events of the coarse phase, for the deletion-ordering property: a buffered append of
one record of document `doc` into cell `cell`, the deletion of a source document, and
the flush of a cell sink. -/
inductive Ev where
  | append (doc : Nat) (cell : Nat) : Ev
  | deleteDoc (doc : Nat) : Ev
  | flushCell (cell : Nat) : Ev
deriving DecidableEq

/-- The buffered appends contributed by document `d` (its records, in order). -/
def docEvents (K : Nat) (draws : Nat → Nat) (d t n : Nat) : List Ev :=
  (List.range n).map fun k => Ev.append d (draws (t + k) % K)

def coarseTraceAux (K : Nat) (draws : Nat → Nat) (removeLocals : Bool) :
    List Bytes → Nat → Nat → List Ev
  | [], _, _ => []
  | doc :: docs, d, t =>
    let n := (linesOf doc).length
    docEvents K draws d t n ++ (if removeLocals then [Ev.deleteDoc d] else []) ++
      coarseTraceAux K draws removeLocals docs (d + 1) (t + n)

/-- main.rs 106-117 as an event trace: for each document its buffered appends followed
(when `remove_locals` is set) by its deletion at line 111; the flush of every cell sink
(lines 116-117) happens only after the loop over all documents has finished. -/
def coarseTrace (K : Nat) (draws : Nat → Nat) (docs : List Bytes) (removeLocals : Bool) :
    List Ev :=
  coarseTraceAux K draws removeLocals docs 0 0 ++ (List.range K).map Ev.flushCell

/-- Validity of a Fisher-Yates draw list over `n` elements: `n - 1` draws, and the `k`-th
draw, which swaps position `n-1-k`, is a `gen_range(0..=n-1-k)` value, i.e. `< n - k`. -/
def validDraws (ds : List Nat) (n : Nat) : Prop :=
  ds.length = n - 1 ∧ ∀ k, (h : k < ds.length) → ds.get ⟨k, h⟩ < n - k

/-! ### List helpers -/

lemma getD_set_self {α : Type _} :
    ∀ (l : List α) (i : Nat) (a d : α), i < l.length → (l.set i a).getD i d = a
  | [], i, _, _, h => absurd h (by simp)
  | _ :: _, 0, _, _, _ => rfl
  | _ :: l, i + 1, a, d, h => getD_set_self l i a d (by simpa using h)

lemma getD_set_ne {α : Type _} :
    ∀ (l : List α) (i j : Nat) (a d : α), i ≠ j → (l.set i a).getD j d = l.getD j d
  | [], _, _, _, _, _ => by simp
  | _ :: _, 0, 0, _, _, h => absurd rfl h
  | _ :: _, 0, _ + 1, _, _, _ => rfl
  | _ :: _, _ + 1, 0, _, _, _ => rfl
  | _ :: l, i + 1, j + 1, a, d, h =>
    getD_set_ne l i j a d (fun hc => h (by rw [hc]))

/-! ### `linesOf` lemmas -/

lemma stripCR_no10 {l : List Nat} (h : (10 : Nat) ∉ l) : (10 : Nat) ∉ stripCR l := by
  unfold stripCR
  split
  · exact fun hc => h ((List.dropLast_sublist l).subset hc)
  · exact h

lemma stripCR_eq_self {l : List Nat} (h : l.getLast? ≠ some 13) : stripCR l = l := by
  unfold stripCR
  split
  · exact absurd (by assumption) h
  · rfl

lemma linesOfAux_no10 :
    ∀ (bs acc : List Nat), (10 : Nat) ∉ acc →
      ∀ r ∈ linesOfAux bs acc, (10 : Nat) ∉ r := by
  intro bs
  induction bs with
  | nil =>
    intro acc hacc r hr
    unfold linesOfAux at hr
    split at hr
    · simp at hr
    · rw [List.mem_singleton] at hr
      subst hr
      simpa using hacc
  | cons b bs ih =>
    intro acc hacc r hr
    unfold linesOfAux at hr
    split at hr
    · rename_i hb
      rcases List.mem_cons.mp hr with h1 | h1
      · subst h1
        exact stripCR_no10 (by simpa using hacc)
      · exact ih [] (by simp) r h1
    · rename_i hb
      refine ih (b :: acc) ?_ r hr
      intro hc
      rcases List.mem_cons.mp hc with h1 | h1
      · exact hb h1.symm
      · exact hacc h1

lemma linesOf_no10 {bs : List Nat} : ∀ r ∈ linesOf bs, (10 : Nat) ∉ r :=
  linesOfAux_no10 bs [] (by simp)

lemma linesOfAux_terminated {r : List Nat} (h : (10 : Nat) ∉ r) :
    ∀ (rest acc : List Nat),
      linesOfAux (r ++ 10 :: rest) acc = stripCR (acc.reverse ++ r) :: linesOfAux rest [] := by
  induction r with
  | nil =>
    intro rest acc
    simp [linesOfAux]
  | cons b r ih =>
    intro rest acc
    have hb : b ≠ 10 := fun hc => h (by simp [hc])
    have h' : (10 : Nat) ∉ r := fun hc => h (by simp [hc])
    simp only [List.cons_append, linesOfAux, if_neg hb, List.append_eq]
    rw [ih h' rest (b :: acc)]
    simp

lemma linesOf_terminated {r : List Nat} (h : (10 : Nat) ∉ r) (rest : List Nat) :
    linesOf (r ++ 10 :: rest) = stripCR r :: linesOf rest := by
  unfold linesOf
  rw [linesOfAux_terminated h rest []]
  simp

lemma linesOfAux_last {r : List Nat} (hne : r ≠ []) (h : (10 : Nat) ∉ r) :
    ∀ acc : List Nat, linesOfAux r acc = [acc.reverse ++ r] := by
  induction r with
  | nil => exact absurd rfl hne
  | cons b r ih =>
    intro acc
    have hb : b ≠ 10 := fun hc => h (by simp [hc])
    have h' : (10 : Nat) ∉ r := fun hc => h (by simp [hc])
    simp only [linesOfAux, if_neg hb]
    rcases List.eq_nil_or_concat r with h1 | h1
    · subst h1
      simp [linesOfAux]
    · have : r ≠ [] := by
        rcases h1 with ⟨_, _, h1⟩
        simp [h1]
      rw [ih this h' (b :: acc)]
      simp

lemma linesOf_untermin {r : List Nat} (hne : r ≠ []) (h : (10 : Nat) ∉ r) :
    linesOf r = [r] := by
  unfold linesOf
  rw [linesOfAux_last hne h []]
  simp

lemma encodeRecs_cons (r : Record) (rs : List Record) :
    encodeRecs (r :: rs) = r ++ 10 :: encodeRecs rs := by
  simp [encodeRecs]

lemma encodeRecs_append (rs₁ rs₂ : List Record) :
    encodeRecs (rs₁ ++ rs₂) = encodeRecs rs₁ ++ encodeRecs rs₂ := by
  simp [encodeRecs]

lemma linesOf_encodeRecs :
    ∀ rs : List Record, (∀ r ∈ rs, (10 : Nat) ∉ r) → (∀ r ∈ rs, stripCR r = r) →
      linesOf (encodeRecs rs) = rs := by
  intro rs
  induction rs with
  | nil => intro _ _; rfl
  | cons r rs ih =>
    intro h1 h2
    rw [encodeRecs_cons, linesOf_terminated (h1 r (by simp)),
      ih (fun x hx => h1 x (by simp [hx])) (fun x hx => h2 x (by simp [hx])),
      h2 r (by simp)]

/-! ### Coarse-phase routing lemmas -/

lemma appendToCell_length (cells : List Bytes) (i : Nat) (r : Record) :
    (appendToCell cells i r).length = cells.length := by
  simp [appendToCell]

lemma appendToCell_getD_self (cells : List Bytes) (i : Nat) (r : Record)
    (h : i < cells.length) :
    (appendToCell cells i r).getD i [] = cells.getD i [] ++ (r ++ [10]) :=
  getD_set_self cells i _ [] h

lemma appendToCell_getD_ne (cells : List Bytes) (i j : Nat) (r : Record) (h : i ≠ j) :
    (appendToCell cells i r).getD j [] = cells.getD j [] :=
  getD_set_ne cells i j _ [] h

lemma routeRecords_spec {K : Nat} {draws : Nat → Nat} (hK : K ≠ 0) :
    ∀ (rs : List Record) (t : Nat) (cells : List Bytes), cells.length = K →
      ∃ cells', routeRecords K draws rs t cells = some (cells', t + rs.length) ∧
        cells'.length = K ∧
        ∀ i, cells'.getD i [] = cells.getD i [] ++ encodeRecs (assignedTo K draws t i rs) := by
  intro rs
  induction rs with
  | nil =>
    intro t cells hlen
    exact ⟨cells, rfl, hlen, fun i => by simp [assignedTo, encodeRecs]⟩
  | cons r rs ih =>
    intro t cells hlen
    have hc0 : draws t % K < cells.length := by
      rw [hlen]; exact Nat.mod_lt _ (Nat.pos_of_ne_zero hK)
    obtain ⟨cells', heq, hlen', hget⟩ :=
      ih (t + 1) (appendToCell cells (draws t % K) r)
        (by rw [appendToCell_length, hlen])
    refine ⟨cells', ?_, hlen', ?_⟩
    · rw [show t + (r :: rs).length = t + 1 + rs.length by
        simp only [List.length_cons]; omega]
      simp only [routeRecords, if_neg hK]
      exact heq
    · intro i
      rcases eq_or_ne (draws t % K) i with hi | hi
      · rw [hget i, ← hi, appendToCell_getD_self cells _ r hc0]
        have hrw : assignedTo K draws t (draws t % K) (r :: rs) =
            r :: assignedTo K draws (t + 1) (draws t % K) rs := by
          simp [assignedTo]
        rw [hrw, encodeRecs_cons]
        simp
      · rw [hget i, appendToCell_getD_ne cells _ i r hi]
        simp only [assignedTo, if_neg hi, List.nil_append]

lemma assignedTo_subset {K : Nat} {draws : Nat → Nat} :
    ∀ (rs : List Record) (t i : Nat), ∀ r ∈ assignedTo K draws t i rs, r ∈ rs := by
  intro rs
  induction rs with
  | nil => intro t i r hr; simp [assignedTo] at hr
  | cons x rs ih =>
    intro t i r hr
    simp only [assignedTo] at hr
    rcases List.mem_append.mp hr with h1 | h1
    · split at h1
      · simp at h1; simp [h1]
      · simp at h1
    · exact List.mem_cons_of_mem _ (ih (t + 1) i r h1)

lemma flatten_map_insert_perm {c0 : Nat} (r : Record) (f : Nat → List Record) :
    ∀ ns : List Nat, c0 ∈ ns → ns.Nodup →
      (ns.map fun i => (if c0 = i then [r] else []) ++ f i).flatten.Perm
        (r :: (ns.map f).flatten) := by
  intro ns
  induction ns with
  | nil => intro h; simp at h
  | cons a ns ih =>
    intro hmem hnd
    rcases List.nodup_cons.mp hnd with ⟨hna, hnd'⟩
    rcases eq_or_ne c0 a with ha | ha
    · subst ha
      have hrest : (ns.map fun i => (if c0 = i then [r] else []) ++ f i) = ns.map f := by
        refine List.map_congr_left ?_
        intro i hi
        have : c0 ≠ i := fun hc => hna (hc ▸ hi)
        simp [if_neg this]
      simp only [List.map_cons, List.flatten_cons, if_pos rfl, hrest]
      simp
    · have hmem' : c0 ∈ ns := by
        rcases List.mem_cons.mp hmem with h1 | h1
        · exact absurd h1 ha
        · exact h1
      have hp := ih hmem' hnd'
      simp only [List.map_cons, List.flatten_cons, if_neg ha, List.nil_append]
      exact (hp.append_left (f a)).trans List.perm_middle

lemma assignedTo_flatten_perm {K : Nat} {draws : Nat → Nat} (hK : K ≠ 0) :
    ∀ (rs : List Record) (t : Nat),
      ((List.range K).map fun i => assignedTo K draws t i rs).flatten.Perm rs := by
  intro rs
  induction rs with
  | nil =>
    intro t
    have : ((List.range K).map fun i => assignedTo K draws t i ([] : List Record)) =
        (List.range K).map fun _ => ([] : List Record) := by
      refine List.map_congr_left fun i _ => ?_
      simp [assignedTo]
    rw [this]
    have : ((List.range K).map fun _ => ([] : List Record)).flatten = [] := by
      simp
    rw [this]
  | cons r rs ih =>
    intro t
    have hstep : ((List.range K).map fun i => assignedTo K draws t i (r :: rs)) =
        (List.range K).map fun i =>
          (if draws t % K = i then [r] else []) ++ assignedTo K draws (t + 1) i rs := by
      refine List.map_congr_left fun i _ => ?_
      simp [assignedTo]
    rw [hstep]
    have hmem : draws t % K ∈ List.range K :=
      List.mem_range.mpr (Nat.mod_lt _ (Nat.pos_of_ne_zero hK))
    exact (flatten_map_insert_perm r _ (List.range K) hmem (List.nodup_range K)).trans
      ((ih (t + 1)).cons r)

lemma flatten_map_append_perm (a b : Nat → List Record) :
    ∀ ns : List Nat,
      (ns.map fun i => a i ++ b i).flatten.Perm ((ns.map a).flatten ++ (ns.map b).flatten) := by
  intro ns
  induction ns with
  | nil => simp
  | cons x ns ih =>
    simp only [List.map_cons, List.flatten_cons]
    have h1 : ((a x ++ b x) ++ (ns.map fun i => a i ++ b i).flatten).Perm
        ((a x ++ b x) ++ ((ns.map a).flatten ++ (ns.map b).flatten)) := ih.append_left _
    refine h1.trans ?_
    have h2 : (b x ++ ((ns.map a).flatten ++ (ns.map b).flatten)).Perm
        ((ns.map a).flatten ++ (b x ++ (ns.map b).flatten)) := by
      rw [← List.append_assoc, ← List.append_assoc]
      exact (List.perm_append_comm).append_right _
    have h3 := h2.append_left (a x)
    simpa [List.append_assoc] using h3

/-- Full coarse loop over all documents: the final content of every cell is its initial
content followed by the newline-terminated records routed to it, and the routed records
across all cells are a permutation of all input records. -/
lemma coarse_loop_spec (K : Nat) (draws : Nat → Nat) (hK : K ≠ 0) :
    ∀ (docs : List Bytes) (t : Nat) (cells : List Bytes), cells.length = K →
      ∃ cells' t' g, coarse_loop K draws docs t cells = some (cells', t') ∧
        cells'.length = K ∧
        (∀ i, cells'.getD i [] = cells.getD i [] ++ encodeRecs (g i)) ∧
        ((List.range K).map g).flatten.Perm ((docs.map linesOf).flatten) ∧
        (∀ i, ∀ r ∈ g i, r ∈ (docs.map linesOf).flatten) := by
  intro docs
  induction docs with
  | nil =>
    intro t cells hlen
    refine ⟨cells, t, fun _ => [], rfl, hlen, fun i => by simp [encodeRecs], ?_, ?_⟩
    · simp
    · simp
  | cons doc docs ih =>
    intro t cells hlen
    obtain ⟨cells₁, heq₁, hlen₁, hget₁⟩ := routeRecords_spec hK (linesOf doc) t cells hlen
    obtain ⟨cells', t', g₂, heq₂, hlen', hget₂, hperm₂, hmem₂⟩ :=
      ih (t + (linesOf doc).length) cells₁ hlen₁
    refine ⟨cells', t', fun i => assignedTo K draws t i (linesOf doc) ++ g₂ i, ?_, hlen', ?_, ?_, ?_⟩
    · have hsingle : coarse_shuffle_single K draws doc t cells =
          some (cells₁, t + (linesOf doc).length) := heq₁
      simp only [coarse_loop, hsingle]
      exact heq₂
    · intro i
      rw [hget₂ i, hget₁ i, encodeRecs_append, List.append_assoc]
    · have h1 := flatten_map_append_perm (fun i => assignedTo K draws t i (linesOf doc)) g₂
        (List.range K)
      refine (h1.trans ?_)
      simp only [List.map_cons, List.flatten_cons]
      exact (assignedTo_flatten_perm hK (linesOf doc) t).append hperm₂
    · intro i r hr
      simp only [List.map_cons, List.flatten_cons, List.mem_append]
      rcases List.mem_append.mp hr with h1 | h1
      · exact Or.inl (assignedTo_subset (linesOf doc) t i r h1)
      · exact Or.inr (hmem₂ i r h1)

/-- `coarse_shuffle` with `K ≠ 0`: every cell ends as its pre-existing file content
followed by the newline-terminated records routed to it this run, and the routed records
across cells are a permutation of all input records. -/
lemma coarse_shuffle_spec (K : Nat) (draws : Nat → Nat) (hK : K ≠ 0)
    (docs : List Bytes) (pre : Nat → Bytes) :
    ∃ cells g, coarse_shuffle K draws docs pre = some cells ∧
      cells.length = K ∧
      (∀ i, i < K → cells.getD i [] = pre i ++ encodeRecs (g i)) ∧
      ((List.range K).map g).flatten.Perm ((docs.map linesOf).flatten) ∧
      (∀ i, ∀ r ∈ g i, r ∈ (docs.map linesOf).flatten) := by
  obtain ⟨cells', t', g, heq, hlen, hget, hperm, hmem⟩ :=
    coarse_loop_spec K draws hK docs 0 (build_local_mappers K pre)
      (by simp [build_local_mappers])
  refine ⟨cells', g, ?_, hlen, ?_, hperm, hmem⟩
  · simp only [coarse_shuffle, heq]
  · intro i hi
    rw [hget i]
    congr 1
    simp [build_local_mappers, List.getD_eq_getElem?_getD, hi]

/-! ### Chunking lemmas -/

lemma chunksGo_nil {α : Type _} (D : Nat) : ∀ fuel : Nat, chunksGo D fuel ([] : List α) = []
  | 0 => rfl
  | _ + 1 => rfl

lemma chunksGo_flatten {α : Type _} {D : Nat} (hD : D ≠ 0) :
    ∀ (fuel : Nat) (xs : List α), xs.length ≤ fuel → (chunksGo D fuel xs).flatten = xs := by
  intro fuel
  induction fuel with
  | zero =>
    intro xs h
    rw [List.eq_nil_of_length_eq_zero (Nat.le_zero.mp h), chunksGo_nil]
    rfl
  | succ fuel ih =>
    intro xs h
    cases xs with
    | nil => rw [chunksGo_nil]; rfl
    | cons x xs =>
      simp only [chunksGo, List.flatten_cons]
      rw [ih ((x :: xs).drop D)
        (by simp only [List.length_drop, List.length_cons] at h ⊢; omega)]
      exact List.take_append_drop D (x :: xs)

lemma chunksGo_mem_length_le {α : Type _} {D : Nat} :
    ∀ (fuel : Nat) (xs : List α), ∀ ch ∈ chunksGo D fuel xs, ch.length ≤ D := by
  intro fuel
  induction fuel with
  | zero =>
    intro xs ch hch
    cases xs <;> simp [chunksGo_nil, chunksGo] at hch
  | succ fuel ih =>
    intro xs ch hch
    cases xs with
    | nil => simp [chunksGo_nil] at hch
    | cons x xs =>
      simp only [chunksGo, List.mem_cons] at hch
      rcases hch with h1 | h1
      · subst h1
        simp only [List.length_take]
        exact Nat.min_le_left _ _
      · exact ih _ ch h1

lemma chunksGo_dropLast_length {α : Type _} {D : Nat} (hD : D ≠ 0) :
    ∀ (fuel : Nat) (xs : List α), xs.length ≤ fuel →
      ∀ ch ∈ (chunksGo D fuel xs).dropLast, ch.length = D := by
  intro fuel
  induction fuel with
  | zero =>
    intro xs h ch hch
    rw [List.eq_nil_of_length_eq_zero (Nat.le_zero.mp h), chunksGo_nil] at hch
    simp at hch
  | succ fuel ih =>
    intro xs h ch hch
    cases xs with
    | nil => rw [chunksGo_nil] at hch; simp at hch
    | cons x xs =>
      simp only [chunksGo] at hch
      rcases hrest : chunksGo D fuel ((x :: xs).drop D) with _ | ⟨c, cs⟩
      · rw [hrest] at hch
        simp at hch
      · rw [hrest, List.dropLast_cons_of_ne_nil (by simp)] at hch
        have hdrop : (x :: xs).drop D ≠ [] := by
          intro hc
          rw [hc, chunksGo_nil] at hrest
          exact List.cons_ne_nil _ _ hrest.symm
        have hlt : D < (x :: xs).length := by
          by_contra hle
          exact hdrop (List.drop_eq_nil_of_le (by omega))
        rcases List.mem_cons.mp hch with h1 | h1
        · subst h1
          simp only [List.length_take]
          omega
        · rw [← hrest] at h1
          exact ih ((x :: xs).drop D)
            (by simp only [List.length_drop, List.length_cons] at *; omega) ch h1

lemma chunksGo_count {α : Type _} {D : Nat} (hD : D ≠ 0) :
    ∀ (fuel : Nat) (xs : List α), xs.length ≤ fuel →
      (chunksGo D fuel xs).length = (xs.length + D - 1) / D := by
  intro fuel
  induction fuel with
  | zero =>
    intro xs h
    rw [List.eq_nil_of_length_eq_zero (Nat.le_zero.mp h), chunksGo_nil]
    simp only [List.length_nil, Nat.zero_add]
    exact (Nat.div_eq_of_lt (by omega)).symm
  | succ fuel ih =>
    intro xs h
    cases xs with
    | nil =>
      rw [chunksGo_nil]
      simp only [List.length_nil, Nat.zero_add]
      exact (Nat.div_eq_of_lt (by omega)).symm
    | cons x xs =>
      simp only [chunksGo, List.length_cons]
      rw [ih ((x :: xs).drop D)
        (by simp only [List.length_drop, List.length_cons] at h ⊢; omega)]
      simp only [List.length_drop, List.length_cons]
      have hx : xs.length + 1 + D - 1 = xs.length + D := by omega
      rw [hx, Nat.add_div_right _ (Nat.pos_of_ne_zero hD)]
      rcases le_or_lt (xs.length + 1) D with hle | hlt
      · have h1 : xs.length + 1 - D + D - 1 = D - 1 := by omega
        rw [h1, Nat.div_eq_of_lt (by omega), Nat.div_eq_of_lt (by omega)]
      · have h1 : xs.length + 1 - D + D - 1 = (xs.length - D) + D := by omega
        rw [h1, Nat.add_div_right _ (Nat.pos_of_ne_zero hD),
          Nat.div_eq_sub_div (Nat.pos_of_ne_zero hD) (by omega : D ≤ xs.length)]

lemma chunksOf_flatten {α : Type _} {D : Nat} (hD : D ≠ 0) (xs : List α) :
    (chunksOf D xs).flatten = xs :=
  chunksGo_flatten hD xs.length xs (Nat.le_refl _)

lemma chunksOf_mem_length_le {α : Type _} {D : Nat} (xs : List α) :
    ∀ ch ∈ chunksOf D xs, ch.length ≤ D :=
  chunksGo_mem_length_le xs.length xs

lemma chunksOf_dropLast_length {α : Type _} {D : Nat} (hD : D ≠ 0) (xs : List α) :
    ∀ ch ∈ (chunksOf D xs).dropLast, ch.length = D :=
  chunksGo_dropLast_length hD xs.length xs (Nat.le_refl _)

lemma chunksOf_count {α : Type _} {D : Nat} (hD : D ≠ 0) (xs : List α) :
    (chunksOf D xs).length = (xs.length + D - 1) / D :=
  chunksGo_count hD xs.length xs (Nat.le_refl _)

/-! ### Fisher-Yates lemmas -/

lemma set_append_get_perm {α : Type _} :
    ∀ (xs : List α) (j : Nat) (b : α) (h : j < xs.length),
      (xs.set j b ++ [xs[j]]).Perm (xs ++ [b]) := by
  intro xs
  induction xs with
  | nil => intro j b h; simp at h
  | cons x xs ih =>
    intro j b h
    cases j with
    | zero =>
      simp only [List.set_cons_zero, List.getElem_cons_zero, List.cons_append]
      have h1 : (xs ++ [x]).Perm (x :: xs) := List.perm_append_singleton x xs
      have h2 : (xs ++ [b]).Perm (b :: xs) := List.perm_append_singleton b xs
      exact ((h1.cons b).trans (List.Perm.swap x b xs)).trans (h2.cons x).symm
    | succ j =>
      simp only [List.set_cons_succ, List.getElem_cons_succ, List.cons_append]
      exact (ih j b (by simpa using h)).cons x

/-- One Fisher-Yates swap step, as done by `fy`: moving the element at slot `j` to the
last slot (and the old last element into slot `j`) permutes the list. -/
lemma lastSwap_perm (l : List Record) (hne : l ≠ []) (j : Nat) :
    ((l.dropLast.set j (l.getLastD [])) ++ [l.dropLast.getD j (l.getLastD [])]).Perm l := by
  have hlast : l.dropLast ++ [l.getLastD []] = l := by
    rw [List.getLastD_eq_getLast?, List.getLast?_eq_getLast l hne]
    exact List.dropLast_append_getLast hne
  have hl2 : (l.dropLast ++ [l.getLastD []]).Perm l := by rw [hlast]
  rcases Nat.lt_or_ge j l.dropLast.length with hj | hj
  · rw [List.getD_eq_getElem _ _ hj]
    exact (set_append_get_perm l.dropLast j (l.getLastD []) hj).trans hl2
  · rw [List.set_eq_of_length_le hj, List.getD_eq_default _ _ hj]
    exact hl2

/-- The modelled `shuffle` permutes the records (for a draw list of the length the fine
phase constructs). -/
lemma fy_perm : ∀ (ds : List Nat) (l : List Record), ds.length ≤ l.length - 1 →
    (fy ds l).Perm l := by
  intro ds
  induction ds with
  | nil => intro l _; exact List.Perm.refl l
  | cons j ds ih =>
    intro l hlen
    have hl2 : 2 ≤ l.length := by
      simp only [List.length_cons] at hlen
      omega
    have hne : l ≠ [] := by
      intro hc
      rw [hc] at hl2
      simp at hl2
    have hM : (l.dropLast.set j (l.getLastD [])).length = l.length - 1 := by
      simp
    have ihM := ih (l.dropLast.set j (l.getLastD []))
      (by rw [hM]; simp only [List.length_cons] at hlen; omega)
    simp only [fy]
    exact ((ihM.append_right _).trans (lastSwap_perm l hne j))

/-! ### Fine-phase structural lemmas -/

/-- The chunk lists the fine phase derives, cell by cell (draw positions threaded). -/
def fineSpec (D : Nat) (f : Nat → Nat) : List Bytes → Nat → List (List (List Record))
  | [], _ => []
  | cell :: rest, t =>
    chunksOf D (fy (fineDrawsList f t ((linesOf cell).length - 1)) (linesOf cell)) ::
      fineSpec D f rest (t + ((linesOf cell).length - 1))

lemma fineDrawsList_length (f : Nat → Nat) (t n : Nat) : (fineDrawsList f t n).length = n := by
  simp [fineDrawsList]

lemma writeChunksList_spec :
    ∀ (chunks : List (List Record)) (c o : Nat),
      ∃ ss, writeChunksList chunks c o = (ss, c + chunks.length, o + chunks.length) ∧
        ss.map Shard.recs = chunks ∧ ss.map Shard.id = List.range' c chunks.length := by
  intro chunks
  induction chunks with
  | nil => intro c o; exact ⟨[], by simp [writeChunksList], rfl, by simp⟩
  | cons ch rest ih =>
    intro c o
    obtain ⟨ss₂, heq₂, hrecs₂, hids₂⟩ := ih (c + 1) (o + 1)
    refine ⟨⟨c, ch⟩ :: ss₂, ?_, ?_, ?_⟩
    · simp only [writeChunksList, write_chunk, heq₂, List.length_cons]
      have h1 : c + 1 + rest.length = c + (rest.length + 1) := by omega
      have h2 : o + 1 + rest.length = o + (rest.length + 1) := by omega
      rw [h1, h2]
    · simp [hrecs₂]
    · simp only [List.map_cons, hids₂, List.length_cons]
      rw [List.range'_succ]

lemma processCell_spec (D : Nat) (f : Nat → Nat) (hD : D ≠ 0) (cell : Bytes) (t c o : Nat) :
    ∃ ss, processCell D f cell t c o =
        some (ss, t + ((linesOf cell).length - 1),
          c + (chunksOf D (fy (fineDrawsList f t ((linesOf cell).length - 1))
            (linesOf cell))).length,
          o + (chunksOf D (fy (fineDrawsList f t ((linesOf cell).length - 1))
            (linesOf cell))).length) ∧
      ss.map Shard.recs =
        chunksOf D (fy (fineDrawsList f t ((linesOf cell).length - 1)) (linesOf cell)) ∧
      ss.map Shard.id = List.range' c
        (chunksOf D (fy (fineDrawsList f t ((linesOf cell).length - 1))
          (linesOf cell))).length := by
  obtain ⟨ss, heq, hrecs, hids⟩ := writeChunksList_spec
    (chunksOf D (fy (fineDrawsList f t ((linesOf cell).length - 1)) (linesOf cell))) c o
  refine ⟨ss, ?_, hrecs, hids⟩
  simp only [processCell, if_neg hD, read_pathbuf_to_mem, heq]

lemma finalize_loop_spec (D : Nat) (f : Nat → Nat) (hD : D ≠ 0) :
    ∀ (cells : List Bytes) (t c o : Nat),
      ∃ shards, finalize_loop D f cells t c o =
          some (shards, o + ((fineSpec D f cells t).map List.length).sum) ∧
        shards.map Shard.recs = (fineSpec D f cells t).flatten ∧
        shards.map Shard.id = List.range' c (((fineSpec D f cells t).map List.length).sum) := by
  intro cells
  induction cells with
  | nil =>
    intro t c o
    exact ⟨[], by simp [finalize_loop, fineSpec], rfl, by simp [fineSpec]⟩
  | cons cell rest ih =>
    intro t c o
    obtain ⟨ss, heq, hrecs, hids⟩ := processCell_spec D f hD cell t c o
    set n₁ := (chunksOf D (fy (fineDrawsList f t ((linesOf cell).length - 1))
      (linesOf cell))).length with hn₁
    obtain ⟨ss₂, heq₂, hrecs₂, hids₂⟩ := ih (t + ((linesOf cell).length - 1)) (c + n₁) (o + n₁)
    refine ⟨ss ++ ss₂, ?_, ?_, ?_⟩
    · simp only [finalize_loop, heq, heq₂, fineSpec, List.map_cons, List.sum_cons]
      rw [← hn₁, Nat.add_assoc]
    · simp only [List.map_append, hrecs, hrecs₂, fineSpec, List.flatten_cons]
    · simp only [List.map_append, hids, hids₂, fineSpec, List.map_cons, List.sum_cons, ← hn₁]
      rw [List.range'_append_1]
      congr 1
      omega

lemma fineSpec_length (D : Nat) (f : Nat → Nat) :
    ∀ (cells : List Bytes) (t : Nat), (fineSpec D f cells t).length = cells.length := by
  intro cells
  induction cells with
  | nil => intro t; rfl
  | cons cell rest ih => intro t; simp [fineSpec, ih]

lemma fineSpec_counts {D : Nat} {f : Nat → Nat} (hD : D ≠ 0) :
    ∀ (cells : List Bytes) (t : Nat),
      ((fineSpec D f cells t).map List.length).sum =
        (cells.map fun cl => ((linesOf cl).length + D - 1) / D).sum := by
  intro cells
  induction cells with
  | nil => intro t; rfl
  | cons cell rest ih =>
    intro t
    simp only [fineSpec, List.map_cons, List.sum_cons, ih]
    congr 1
    rw [chunksOf_count hD]
    congr 1
    have := (fy_perm (fineDrawsList f t ((linesOf cell).length - 1)) (linesOf cell)
      (by rw [fineDrawsList_length])).length_eq
    rw [this]

lemma fineSpec_recs_perm {D : Nat} {f : Nat → Nat} (hD : D ≠ 0) :
    ∀ (cells : List Bytes) (t : Nat),
      ((fineSpec D f cells t).flatten).flatten.Perm ((cells.map linesOf).flatten) := by
  intro cells
  induction cells with
  | nil => intro t; exact List.Perm.refl _
  | cons cell rest ih =>
    intro t
    simp only [fineSpec, List.flatten_cons, List.flatten_append, List.map_cons]
    refine List.Perm.append ?_ (ih _)
    rw [chunksOf_flatten hD]
    exact fy_perm _ _ (by rw [fineDrawsList_length])

lemma fineSpec_mem {D : Nat} {f : Nat → Nat} :
    ∀ (cells : List Bytes) (t : Nat), ∀ chs ∈ fineSpec D f cells t,
      ∃ cell ∈ cells, ∃ sh : List Record, sh.Perm (linesOf cell) ∧ chs = chunksOf D sh := by
  intro cells
  induction cells with
  | nil => intro t chs h; simp [fineSpec] at h
  | cons cell rest ih =>
    intro t chs h
    rcases List.mem_cons.mp h with h1 | h1
    · exact ⟨cell, by simp, fy (fineDrawsList f t ((linesOf cell).length - 1)) (linesOf cell),
        fy_perm _ _ (by rw [fineDrawsList_length]), h1⟩
    · obtain ⟨cl, hcl, sh, hsh, hchs⟩ := ih _ chs h1
      exact ⟨cl, List.mem_cons_of_mem _ hcl, sh, hsh, hchs⟩

/-! ### Uniformity of the modelled shuffle -/

lemma append_singleton_inj {α : Type _} {u v : List α} {a b : α}
    (h : u ++ [a] = v ++ [b]) : u = v ∧ a = b := by
  obtain ⟨h1, h2⟩ := List.append_inj' h rfl
  exact ⟨h1, by injection h2⟩

lemma perm_append_singleton_inv {α : Type _} {u v : List α} {a : α}
    (h : (u ++ [a]).Perm (v ++ [a])) : u.Perm v := by
  have h1 : ((a :: u) : List α).Perm (a :: v) :=
    (List.perm_append_singleton a u).symm.trans (h.trans (List.perm_append_singleton a v))
  exact h1.cons_inv

lemma fy_cons (j : Nat) (ds : List Nat) (l : List Record) :
    fy (j :: ds) l =
      fy ds (l.dropLast.set j (l.getLastD [])) ++ [l.dropLast.getD j (l.getLastD [])] := rfl

/-- The element `fy` fixes at the last slot when drawing `j < l.length` is `l[j]`. -/
lemma lastSwap_get {l : List Record} (hne : l ≠ []) {j : Nat} (hj : j < l.length) :
    l.dropLast.getD j (l.getLastD []) = l[j] := by
  rcases Nat.lt_or_ge j l.dropLast.length with hj' | hj'
  · rw [List.getD_eq_getElem _ _ hj']
    exact List.getElem_dropLast l j hj'
  · have hjeq : j = l.length - 1 := by
      simp only [List.length_dropLast] at hj'
      omega
    rw [List.getD_eq_default _ _ hj', List.getLastD_eq_getLast?,
      List.getLast?_eq_getLast l hne, Option.getD_some, List.getLast_eq_getElem l hne]
    subst hjeq
    rfl

/-- Fisher-Yates as implemented reaches every permutation of a duplicate-free list from
exactly one valid draw list: with each draw uniform on its range, all `n!` outcomes are
equally likely. -/
lemma fy_unique : ∀ (n : Nat) (l l2 : List Record), l.length = n → l.Nodup → l2.Perm l →
    ∃! ds, validDraws ds n ∧ fy ds l = l2 := by
  intro n
  induction n using Nat.strong_induction_on with
  | _ n ih =>
    rcases n with _ | n'
    · intro l l2 hlen hnd hperm
      have hl : l = [] := List.eq_nil_of_length_eq_zero hlen
      subst hl
      have hl2 : l2 = [] := hperm.eq_nil
      subst hl2
      refine ⟨[], ⟨⟨rfl, ?_⟩, rfl⟩, ?_⟩
      · intro k h
        simp at h
      · rintro ds' ⟨⟨hlen', _⟩, _⟩
        exact List.eq_nil_of_length_eq_zero hlen'
    rcases n' with _ | m
    · intro l l2 hlen hnd hperm
      obtain ⟨a, hl⟩ := List.length_eq_one.mp hlen
      subst hl
      have hl2 : l2 = [a] := List.perm_singleton.mp hperm
      subst hl2
      refine ⟨[], ⟨⟨rfl, ?_⟩, rfl⟩, ?_⟩
      · intro k h
        simp at h
      · rintro ds' ⟨⟨hlen', _⟩, _⟩
        exact List.eq_nil_of_length_eq_zero hlen'
    · intro l l2 hlen hnd hperm
      have hl2len : l2.length = m + 2 := by rw [hperm.length_eq, hlen]
      have hl2ne : l2 ≠ [] := by
        intro hc
        rw [hc] at hl2len
        simp at hl2len
      have hlne : l ≠ [] := by
        intro hc
        rw [hc] at hlen
        simp at hlen
      have hbmem : l2.getLast hl2ne ∈ l := hperm.subset (List.getLast_mem hl2ne)
      obtain ⟨j₀, hj₀lt, hj₀eq⟩ := List.getElem_of_mem hbmem
      have hswap : ((l.dropLast.set j₀ (l.getLastD [])) ++ [l[j₀]]).Perm l := by
        have h1 := lastSwap_perm l hlne j₀
        rw [lastSwap_get hlne hj₀lt] at h1
        exact h1
      have hMlen : (l.dropLast.set j₀ (l.getLastD [])).length = m + 1 := by
        simp [hlen]
      have hMnd : (l.dropLast.set j₀ (l.getLastD [])).Nodup :=
        ((hswap.symm.nodup_iff).mp hnd).sublist (List.sublist_append_left _ _)
      have hl2dec : l2.dropLast ++ [l2.getLast hl2ne] = l2 :=
        List.dropLast_append_getLast hl2ne
      have hMperm : l2.dropLast.Perm (l.dropLast.set j₀ (l.getLastD [])) := by
        refine perm_append_singleton_inv (a := l2.getLast hl2ne) ?_
        rw [hl2dec]
        refine hperm.trans ?_
        rw [← hj₀eq]
        exact hswap.symm
      obtain ⟨ds, ⟨hdsvalid, hdsfy⟩, hdsuniq⟩ :=
        ih (m + 1) (by omega) (l.dropLast.set j₀ (l.getLastD [])) l2.dropLast hMlen hMnd hMperm
      refine ⟨j₀ :: ds, ⟨⟨?_, ?_⟩, ?_⟩, ?_⟩
      · simp only [List.length_cons, hdsvalid.1]
        omega
      · intro k h
        cases k with
        | zero =>
          simp only [List.get]
          omega
        | succ k =>
          have hk : k < ds.length := by simpa using h
          have := hdsvalid.2 k hk
          simp only [List.get]
          omega
      · rw [fy_cons, hdsfy, lastSwap_get hlne hj₀lt, hj₀eq]
        exact hl2dec
      · rintro ds' ⟨⟨hlen', hbound'⟩, hfy'⟩
        cases ds' with
        | nil => simp at hlen'
        | cons j ds₁ =>
          have hjlt : j < l.length := by
            have := hbound' 0 (by simp)
            simp only [List.get] at this
            omega
          rw [fy_cons, lastSwap_get hlne hjlt, ← hl2dec] at hfy'
          obtain ⟨hfy₁, hjb⟩ := append_singleton_inj hfy'
          have hjj₀ : j = j₀ := by
            rw [← hj₀eq] at hjb
            exact (List.Nodup.getElem_inj_iff hnd).mp hjb
          subst hjj₀
          have hds₁ : ds₁ = ds := by
            refine hdsuniq ds₁ ⟨⟨?_, ?_⟩, hfy₁⟩
            · simp only [List.length_cons] at hlen'
              omega
            · intro k hk
              have hk' : k + 1 < (j :: ds₁).length := by simpa using hk
              have := hbound' (k + 1) hk'
              simp only [List.get] at this ⊢
              omega
          rw [hds₁]

/-! ### Degenerate inputs and shard provenance -/

lemma processCell_empty {D : Nat} {f : Nat → Nat} (hD : D ≠ 0) (t c o : Nat) :
    processCell D f [] t c o = some ([], t, c, o) := by
  simp [processCell, if_neg hD, read_pathbuf_to_mem, linesOf, linesOfAux, fineDrawsList,
    chunksOf, chunksGo, fy, writeChunksList]

lemma finalize_loop_skip_empty {D : Nat} {f : Nat → Nat} (hD : D ≠ 0) :
    ∀ (xs ys : List Bytes) (t c o : Nat),
      finalize_loop D f (xs ++ [] :: ys) t c o = finalize_loop D f (xs ++ ys) t c o := by
  intro xs
  induction xs with
  | nil =>
    intro ys t c o
    simp only [List.nil_append, finalize_loop, processCell_empty hD]
    rcases hfin : finalize_loop D f ys t c o with _ | ⟨ss2, oFin⟩ <;> simp
  | cons x xs ih =>
    intro ys t c o
    obtain ⟨ss, heq, -, -⟩ := processCell_spec D f hD x t c o
    simp only [List.cons_append, finalize_loop, heq, List.append_eq, ih]

lemma coarse_loop_K0_none (draws : Nat → Nat) :
    ∀ (docs : List Bytes) (t : Nat) (cells : List Bytes),
      (∃ doc ∈ docs, linesOf doc ≠ []) → coarse_loop 0 draws docs t cells = none := by
  intro docs
  induction docs with
  | nil => intro t cells h; simp at h
  | cons doc docs ih =>
    intro t cells h
    rcases hdoc : linesOf doc with _ | ⟨r, rs⟩
    · have hsingle : coarse_shuffle_single 0 draws doc t cells = some (cells, t) := by
        simp [coarse_shuffle_single, read_pathbuf_to_mem, hdoc, routeRecords]
      simp only [coarse_loop, hsingle]
      refine ih t cells ?_
      rcases h with ⟨d, hd, hne⟩
      rcases List.mem_cons.mp hd with h1 | h1
      · subst h1
        exact absurd hdoc hne
      · exact ⟨d, h1, hne⟩
    · have hsingle : coarse_shuffle_single 0 draws doc t cells = none := by
        simp [coarse_shuffle_single, read_pathbuf_to_mem, hdoc, routeRecords]
      simp only [coarse_loop, hsingle]

lemma finalize_loop_D0 (f : Nat → Nat) (cell : Bytes) (rest : List Bytes) (t c o : Nat) :
    finalize_loop 0 f (cell :: rest) t c o = none := by
  simp [finalize_loop, processCell]

/-- Every shard written by a successful fine phase is one chunk of the shuffled record
sequence of one of the cells. -/
lemma finalize_shard_from_cell {D : Nat} {f : Nat → Nat} {cells : List Bytes}
    {shards : List Shard} {n : Nat} (hD : D ≠ 0)
    (h : finalize_chunks D f cells = some (shards, n)) :
    ∀ s ∈ shards, ∃ cell ∈ cells, ∃ sh : List Record,
      sh.Perm (linesOf cell) ∧ s.recs ∈ chunksOf D sh := by
  obtain ⟨shards', heq, hrecs, hids⟩ := finalize_loop_spec D f hD cells 0 0 0
  rw [finalize_chunks, heq] at h
  simp only [Option.some.injEq, Prod.mk.injEq] at h
  obtain ⟨h1, -⟩ := h
  intro s hs
  have hmem : s.recs ∈ (fineSpec D f cells 0).flatten := by
    rw [← hrecs, h1]
    exact List.mem_map_of_mem Shard.recs hs
  obtain ⟨chs, hchs, hrec⟩ := List.mem_flatten.mp hmem
  obtain ⟨cell, hcell, sh, hsh, hchseq⟩ := fineSpec_mem cells 0 chs hchs
  exact ⟨cell, hcell, sh, hsh, hchseq ▸ hrec⟩

/-- All records of all input documents, in document order. -/
def allRecords (docs : List Bytes) : List Record := (docs.map linesOf).flatten

lemma allRecords_no10 {docs : List Bytes} : ∀ r ∈ allRecords docs, (10 : Nat) ∉ r := by
  intro r hr
  obtain ⟨lr, hlr, hrlr⟩ := List.mem_flatten.mp hr
  obtain ⟨doc, -, hdoc⟩ := List.mem_map.mp hlr
  exact linesOf_no10 r (hdoc ▸ hrlr)

lemma cells_map_eq {K : Nat} {cells : List Bytes} {g : Nat → List Record}
    (hlen : cells.length = K) (hget : ∀ i, i < K → linesOf (cells.getD i []) = g i) :
    cells.map linesOf = (List.range K).map g := by
  refine List.ext_getElem (by simp [hlen]) ?_
  intro i h1 h2
  have hi : i < K := by simpa [hlen] using h2
  have hic : i < cells.length := by omega
  rw [List.getElem_map, List.getElem_map, List.getElem_range]
  rw [← hget i hi, List.getD_eq_getElem _ _ hic]

/-! ### Claims -/

/-- C2: the claim says an input document is deleted only strictly after all of its
records have been flushed to the cell sinks.  The code deletes the document right after
its buffered appends (main.rs 110-112), while the flush of the cell sinks happens only
after the whole document loop (main.rs 116-117): on the one-document input "a\n" with
`remove_locals` set, the deletion event precedes the flush event. -/
theorem c2_delete_before_flush :
    coarseTrace 1 (fun _ => 0) [[97, 10]] true =
      [Ev.append 0 0, Ev.deleteDoc 0, Ev.flushCell 0] ∧
    (coarseTrace 1 (fun _ => 0) [[97, 10]] true).indexOf (Ev.deleteDoc 0) <
      (coarseTrace 1 (fun _ => 0) [[97, 10]] true).indexOf (Ev.flushCell 0) := by
  constructor
  · rfl
  · decide

/-- C3: the claim says `build_local_mappers` creates K empty cell sinks, so cells hold
exactly this run's records.  The sinks are opened `append(true).create(true)` without
truncation (main.rs 89-94): with a pre-existing `local_mapper_0.bin` holding "s\n", the
cell after the coarse phase holds the stale record followed by this run's record, not
just this run's records. -/
theorem c3_stale_cell_content :
    coarse_shuffle 1 (fun _ => 0) [[120, 10]] (fun _ => [115, 10]) =
      some [[115, 10, 120, 10]] ∧
    [[115, 10, 120, 10]] ≠ [encodeRecs (linesOf [120, 10])] := by
  constructor
  · rfl
  · decide

/-- C4: every record of a document is appended to exactly one of the K cells — record
number `k` goes to cell `draws (t+k) % K`, each cell receives exactly its assigned
records appended after its previous content, and the assigned records across all K
cells are a permutation of the document's records. -/
theorem c4_partition_complete (K : Nat) (draws : Nat → Nat) (doc : Bytes) (t : Nat)
    (cells : List Bytes) (hK : K ≠ 0) (hlen : cells.length = K) :
    ∃ cells', coarse_shuffle_single K draws doc t cells =
        some (cells', t + (linesOf doc).length) ∧
      (∀ i, cells'.getD i [] =
        cells.getD i [] ++ encodeRecs (assignedTo K draws t i (linesOf doc))) ∧
      ((List.range K).map fun i => assignedTo K draws t i (linesOf doc)).flatten.Perm
        (linesOf doc) := by
  obtain ⟨cells', heq, hlen', hget⟩ := routeRecords_spec hK (linesOf doc) t cells hlen
  exact ⟨cells', heq, hget, assignedTo_flatten_perm hK (linesOf doc) t⟩

/-- Witness for C4 on a concrete two-record document. -/
theorem c4_witness : (2 : Nat) ≠ 0 ∧
    ∃ cells', coarse_shuffle_single 2 (fun t => t) [97, 10, 98, 10] 0 [[], []] =
        some (cells', 0 + (linesOf [97, 10, 98, 10]).length) ∧
      (∀ i, cells'.getD i [] = ([[], []] : List Bytes).getD i [] ++
        encodeRecs (assignedTo 2 (fun t => t) 0 i (linesOf [97, 10, 98, 10]))) ∧
      ((List.range 2).map fun i => assignedTo 2 (fun t => t) 0 i
        (linesOf [97, 10, 98, 10])).flatten.Perm (linesOf [97, 10, 98, 10]) :=
  ⟨by decide, c4_partition_complete 2 (fun t => t) [97, 10, 98, 10] 0 [[], []]
    (by decide) (by decide)⟩

/-- C7: the fine phase's shuffle (Fisher-Yates over the whole cell) reaches every
permutation of a duplicate-free record list from exactly one valid draw list; since
each draw is uniform on its range, every permutation is equally likely. -/
theorem c7_uniform_shuffle (l l2 : List Record) (hnd : l.Nodup) (hperm : l2.Perm l) :
    ∃! ds, validDraws ds l.length ∧ fy ds l = l2 :=
  fy_unique l.length l l2 rfl hnd hperm

/-- Witness for C7: the reversal of a two-record cell is produced by exactly one draw. -/
theorem c7_witness :
    ∃! ds, validDraws ds ([[0], [1]] : List Record).length ∧ fy ds [[0], [1]] = [[1], [0]] :=
  c7_uniform_shuffle [[0], [1]] [[1], [0]] (by decide) (by decide)

/-- C8 (amended): K = 0 with at least one input record makes the coarse phase panic
(`% 0`, main.rs 130), and K ≠ 0 with D = 0 makes the fine phase panic (`chunks(0)`,
main.rs 150) — both modelled as `none`; there is no typed ConfigError, and a K = 0 run
over zero records succeeds (see the counterexample). -/
theorem c8_zero_config (K D : Nat) (cd fd : Nat → Nat) (docs : List Bytes)
    (pre : Nat → Bytes) :
    (K = 0 → (∃ doc ∈ docs, linesOf doc ≠ []) → run K D cd fd docs pre = none) ∧
    (K ≠ 0 → D = 0 → run K D cd fd docs pre = none) := by
  constructor
  · intro hK hdocs
    subst hK
    have h1 := coarse_loop_K0_none cd docs 0 (build_local_mappers 0 pre) hdocs
    simp only [run, coarse_shuffle, h1]
  · intro hK hD
    subst hD
    obtain ⟨cells, g, hcoarse, hlen, -, -, -⟩ := coarse_shuffle_spec K cd hK docs pre
    rcases cells with _ | ⟨c, rest⟩
    · rw [← hlen] at hK
      simp at hK
    · simp only [run, hcoarse, finalize_chunks, finalize_loop_D0]

/-- Witness for C8: with one record and K = 0 the run aborts. -/
theorem c8_witness :
    run 0 1 (fun _ => 0) (fun _ => 0) [[97, 10]] (fun _ => []) = none :=
  (c8_zero_config 0 1 (fun _ => 0) (fun _ => 0) [[97, 10]] (fun _ => [])).1 rfl
    ⟨[97, 10], by decide, by decide⟩

/-- Counterexample for C8 as stated: a run configured with K = 0 but no input documents
completes successfully (with zero shards) instead of failing. -/
theorem c8_counterexample :
    run 0 50000 (fun _ => 0) (fun _ => 0) [] (fun _ => []) = some ([], 0) := rfl

/-- C9: an empty cell is processed without error by the fine phase and contributes no
shard, no shard number and no output: dropping it from the cell list leaves the result
of `finalize_chunks` unchanged, and the fine phase always succeeds when D ≠ 0. -/
theorem c9_empty_cells (D : Nat) (f : Nat → Nat) (xs ys : List Bytes) (hD : D ≠ 0) :
    finalize_chunks D f (xs ++ [] :: ys) = finalize_chunks D f (xs ++ ys) ∧
    ∃ shards n, finalize_chunks D f (xs ++ [] :: ys) = some (shards, n) := by
  constructor
  · exact finalize_loop_skip_empty hD xs ys 0 0 0
  · obtain ⟨shards, heq, -, -⟩ := finalize_loop_spec D f hD (xs ++ [] :: ys) 0 0 0
    exact ⟨shards, _, heq⟩

/-- Witness for C9 with one empty and one nonempty cell. -/
theorem c9_witness :
    (finalize_chunks 1 (fun _ => 0) ([[97, 10]] ++ [] :: []) =
      finalize_chunks 1 (fun _ => 0) ([[97, 10]] ++ []) ∧
    ∃ shards n, finalize_chunks 1 (fun _ => 0) ([[97, 10]] ++ [] :: []) =
      some (shards, n)) :=
  c9_empty_cells 1 (fun _ => 0) [[97, 10]] [] (by decide)

/-- C1 (amended): with K > 0, D > 0, no pre-existing cell files, and no input record
ending in a CR byte, the multiset of records across all output shards equals the
multiset of records across all input documents, for any randomness.  (A record ending
in CR is mutated by the cell round-trip — see the counterexample — and pre-existing
cell bytes are injected into the output, see C3.) -/
theorem c1_multiset_preservation (K D : Nat) (cd fd : Nat → Nat) (docs : List Bytes)
    (pre : Nat → Bytes) (hK : K ≠ 0) (hD : D ≠ 0) (hpre : ∀ i, pre i = [])
    (hcr : ∀ r ∈ allRecords docs, r.getLast? ≠ some 13) :
    ∃ shards n, run K D cd fd docs pre = some (shards, n) ∧
      ((shards.map Shard.recs).flatten).Perm (allRecords docs) := by
  obtain ⟨cells, g, hcoarse, hlen, hget, hperm, hmem⟩ := coarse_shuffle_spec K cd hK docs pre
  have hdec : ∀ i, i < K → linesOf (cells.getD i []) = g i := by
    intro i hi
    rw [hget i hi, hpre i, List.nil_append]
    exact linesOf_encodeRecs (g i) (fun r hr => allRecords_no10 r (hmem i r hr))
      (fun r hr => stripCR_eq_self (hcr r (hmem i r hr)))
  have hmapeq : cells.map linesOf = (List.range K).map g := cells_map_eq hlen hdec
  obtain ⟨shards, hfin, hrecs, hids⟩ := finalize_loop_spec D fd hD cells 0 0 0
  refine ⟨shards, 0 + ((fineSpec D fd cells 0).map List.length).sum, ?_, ?_⟩
  · simp only [run, hcoarse]
    exact hfin
  · rw [hrecs]
    refine ((fineSpec_recs_perm hD cells 0).trans ?_)
    rw [hmapeq]
    exact hperm

/-- Witness for C1 on a one-record document. -/
theorem c1_witness :
    ∃ shards n, run 1 1 (fun _ => 0) (fun _ => 0) [[97, 10]] (fun _ => []) =
        some (shards, n) ∧
      ((shards.map Shard.recs).flatten).Perm (allRecords [[97, 10]]) :=
  c1_multiset_preservation 1 1 (fun _ => 0) (fun _ => 0) [[97, 10]] (fun _ => [])
    (by decide) (by decide) (fun i => rfl) (by decide)

/-- Counterexample for C1 as stated: the document "a\r" (final line without terminator,
ending in CR) has the single record "a\r", but the pipeline writes it to the cell as
"a\r\n", which the fine phase reads back as the record "a": the output multiset
{"a"} differs from the input multiset {"a\r"}. -/
theorem c1_counterexample :
    run 1 1 (fun _ => 0) (fun _ => 0) [[97, 13]] (fun _ => []) =
      some ([⟨0, [[97]]⟩], 1) ∧
    ¬ (([(⟨0, [[97]]⟩ : Shard)].map Shard.recs).flatten).Perm (allRecords [[97, 13]]) := by
  constructor
  · rfl
  · decide

/-- C5: with D > 0, every shard a successful fine phase writes holds at most D records,
and within the shard group derived from one cell every shard except the last holds
exactly D records. -/
theorem c5_shard_size_bound (D : Nat) (f : Nat → Nat) (cells : List Bytes)
    (shards : List Shard) (n : Nat) (hD : D ≠ 0)
    (hfin : finalize_chunks D f cells = some (shards, n)) :
    (∀ s ∈ shards, s.recs.length ≤ D) ∧
    ∃ perCell : List (List (List Record)),
      shards.map Shard.recs = perCell.flatten ∧
      perCell.length = cells.length ∧
      ∀ l ∈ perCell, ∀ ch ∈ l.dropLast, ch.length = D := by
  constructor
  · intro s hs
    obtain ⟨cell, -, sh, -, hchunk⟩ := finalize_shard_from_cell hD hfin s hs
    exact chunksOf_mem_length_le sh s.recs hchunk
  · obtain ⟨shards', heq, hrecs, -⟩ := finalize_loop_spec D f hD cells 0 0 0
    rw [finalize_chunks, heq] at hfin
    simp only [Option.some.injEq, Prod.mk.injEq] at hfin
    obtain ⟨h1, -⟩ := hfin
    refine ⟨fineSpec D f cells 0, ?_, fineSpec_length D f cells 0, ?_⟩
    · rw [← h1, hrecs]
    · intro l hl ch hch
      obtain ⟨cell, -, sh, -, hleq⟩ := fineSpec_mem cells 0 l hl
      subst hleq
      exact chunksOf_dropLast_length hD sh ch hch

/-- Witness for C5 on a two-record cell with D = 1. -/
theorem c5_witness : (1 : Nat) ≠ 0 ∧
    ((∀ s ∈ [(⟨0, [[98]]⟩ : Shard), ⟨1, [[97]]⟩], s.recs.length ≤ 1) ∧
    ∃ perCell : List (List (List Record)),
      ([(⟨0, [[98]]⟩ : Shard), ⟨1, [[97]]⟩].map Shard.recs) = perCell.flatten ∧
      perCell.length = ([[97, 10, 98, 10]] : List Bytes).length ∧
      ∀ l ∈ perCell, ∀ ch ∈ l.dropLast, ch.length = 1) :=
  ⟨by decide, c5_shard_size_bound 1 (fun _ => 0) [[97, 10, 98, 10]]
    [⟨0, [[98]]⟩, ⟨1, [[97]]⟩] 2 (by decide) rfl⟩

/-- C6: with D > 0 the fine phase succeeds, its shard numbers form exactly the dense
range `[0, total)` in writing order, and the returned `output_file_count` equals
`total = Σ over cells of ceil(cell records / D)`. -/
theorem c6_dense_numbering (D : Nat) (f : Nat → Nat) (cells : List Bytes) (hD : D ≠ 0) :
    ∃ shards n, finalize_chunks D f cells = some (shards, n) ∧
      n = (cells.map fun cl => ((linesOf cl).length + D - 1) / D).sum ∧
      shards.map Shard.id = List.range n := by
  obtain ⟨shards, heq, -, hids⟩ := finalize_loop_spec D f hD cells 0 0 0
  refine ⟨shards, 0 + ((fineSpec D f cells 0).map List.length).sum, heq, ?_, ?_⟩
  · rw [Nat.zero_add, fineSpec_counts hD]
  · rw [hids, Nat.zero_add, List.range_eq_range']

/-- Witness for C6 on a two-record cell with D = 1. -/
theorem c6_witness :
    ∃ shards n, finalize_chunks 1 (fun _ => 0) [[97, 10, 98, 10]] = some (shards, n) ∧
      n = (([[97, 10, 98, 10]] : List Bytes).map
        fun cl => ((linesOf cl).length + 1 - 1) / 1).sum ∧
      shards.map Shard.id = List.range n :=
  c6_dense_numbering 1 (fun _ => 0) [[97, 10, 98, 10]] (by decide)

/-- C10: every record the pipeline writes is terminated with exactly one LF — a CRLF
terminator in the input is replaced by a lone LF (the CR is not part of the record), a
final line without terminator still counts as a record and receives an LF in the cell,
every record routed to a cell is written as the record bytes plus one LF (and contains
no LF itself), and every record of every written shard likewise carries exactly one LF
in the serialized chunk. -/
theorem c10_newline_normalized :
    (∀ s rest : List Nat, (10 : Nat) ∉ s →
      linesOf (s ++ 13 :: 10 :: rest) = s :: linesOf rest) ∧
    (∀ s : List Nat, s ≠ [] → (10 : Nat) ∉ s → linesOf s = [s]) ∧
    (∀ (K : Nat) (draws : Nat → Nat) (doc : Bytes) (t : Nat) (cells : List Bytes),
      K ≠ 0 → cells.length = K →
      ∃ cells', coarse_shuffle_single K draws doc t cells =
          some (cells', t + (linesOf doc).length) ∧
        ∀ i, ∃ rs : List Record, cells'.getD i [] = cells.getD i [] ++ encodeRecs rs ∧
          ∀ r ∈ rs, (r ++ [10]).count 10 = 1) ∧
    (∀ (D : Nat) (f : Nat → Nat) (cells : List Bytes) (shards : List Shard) (n : Nat),
      finalize_chunks D f cells = some (shards, n) →
      ∀ s ∈ shards, ∀ r ∈ s.recs, (r ++ [10]).count 10 = 1) := by
  have hcount : ∀ r : List Nat, (10 : Nat) ∉ r → (r ++ [10]).count 10 = 1 := by
    intro r hr
    rw [List.count_append]
    rw [List.count_eq_zero.mpr hr]
    rfl
  refine ⟨?_, ?_, ?_, ?_⟩
  · intro s rest h
    have h13 : (10 : Nat) ∉ s ++ [13] := by
      intro hc
      rcases List.mem_append.mp hc with h1 | h1
      · exact h h1
      · simp at h1
    have hassoc : s ++ 13 :: 10 :: rest = (s ++ [13]) ++ 10 :: rest := by
      simp
    rw [hassoc, linesOf_terminated h13 rest]
    congr 1
    unfold stripCR
    rw [if_pos (List.getLast?_concat s)]
    exact List.dropLast_concat
  · exact fun s h1 h2 => linesOf_untermin h1 h2
  · intro K draws doc t cells hK hlen
    obtain ⟨cells', heq, -, hget⟩ := routeRecords_spec hK (linesOf doc) t cells hlen
    refine ⟨cells', heq, ?_⟩
    intro i
    refine ⟨assignedTo K draws t i (linesOf doc), hget i, ?_⟩
    intro r hr
    exact hcount r (linesOf_no10 r (assignedTo_subset (linesOf doc) t i r hr))
  · intro D f cells shards n hfin s hs r hr
    rcases eq_or_ne D 0 with hD | hD
    · subst hD
      rcases cells with _ | ⟨c, rest⟩
      · have : shards = ([] : List Shard) := by
          rw [finalize_chunks] at hfin
          simp only [finalize_loop, Option.some.injEq, Prod.mk.injEq] at hfin
          exact hfin.1.symm
        rw [this] at hs
        simp at hs
      · rw [finalize_chunks, finalize_loop_D0] at hfin
        exact absurd hfin (by simp)
    · obtain ⟨cell, -, sh, hsh, hchunk⟩ := finalize_shard_from_cell hD hfin s hs
      have hrsh : r ∈ sh := by
        rw [← chunksOf_flatten hD sh]
        exact List.mem_flatten.mpr ⟨s.recs, hchunk, hr⟩
      exact hcount r (linesOf_no10 r (hsh.subset hrsh))

/-- Witness for C10: a CRLF-terminated line loses only its terminator. -/
theorem c10_witness : linesOf ([97] ++ 13 :: 10 :: []) = [97] :: linesOf [] :=
  c10_newline_normalized.1 [97] [] (by decide)

end Docshuffle
